import Mathlib

/-!
Verification development for the BEAGLE CPU likelihood engine
(`src/libhmsbeagle/CPU/BeagleCPUImpl.h`).

The repository snapshot contains only the class header: the literal layout
and threading constants, the field declarations with their documenting
comments, and the member signatures. The bodies of the kernels and of the
reduction stage live in `BeagleCPUImpl.hpp`, which is not part of the
snapshot; those operations are therefore modelled from the specification
(each such definition carries a doc comment starting `Modelled from the
spec:`). Real arithmetic is embedded as exact rationals; the natural
logarithm is an explicit function parameter `lg`, so every statement below
holds for the actual `log` as a special case.
-/

namespace BeagleCPU

/-! ### Literal constants from BeagleCPUImpl.h (lines 54-61) -/

/-- Header line 54: pad transition matrix rows with an extra 1.0 for
ambiguous characters. -/
def T_PAD_DEFAULT : ℕ := 1

/-- Header line 55: no row padding for partials in the non-SSE
implementation. -/
def P_PAD_DEFAULT : ℕ := 0

/-- Header line 58: CPU category threshold. -/
def BEAGLE_CPU_ASYNC_HW_THREAD_COUNT_THRESHOLD : ℕ := 16

/-- Header line 59: do not use CPU auto-threading for problems with fewer
patterns on CPUs with many cores. -/
def BEAGLE_CPU_ASYNC_MIN_PATTERN_COUNT_LOW : ℕ := 256

/-- Header line 60: do not use CPU auto-threading for problems with fewer
patterns on CPUs with few cores. -/
def BEAGLE_CPU_ASYNC_MIN_PATTERN_COUNT_HIGH : ℕ := 768

/-- Header line 61: do not use all CPU cores for problems with fewer
patterns. -/
def BEAGLE_CPU_ASYNC_LIMIT_PATTERN_COUNT : ℕ := 262144

/-! ### Return codes -/

/-- Zero means success (spec section 7). -/
def BEAGLE_SUCCESS : Int := 0

/-- Modelled from the spec: error kinds are returned as negative integers
(spec section 7); the concrete enumerator value lives in `beagle.h`, which
is not part of the snapshot. -/
def BEAGLE_ERROR_FLOATING_POINT : Int := -8

/-! ### Root log-likelihood reduction (spec section 4.5)

`calcRootLogLikelihoods` (declared at header lines 448-452, reached through
`calculateRootLogLikelihoods`, lines 341-346) has its body in
`BeagleCPUImpl.hpp`, outside the snapshot: the reduction below is modelled
from the spec. Category weights `w`, state frequencies `freqs` and the
root partials `Q` are indexed by plain naturals; sums run over
`Finset.range`. -/

/-- Modelled from the spec: the per-pattern site likelihood
`L_p = sum over c of w_c * sum over a of freqs_a * Q[c,p,a]`, here with the
pattern slice `Qp c a = Q[c,p,a]` already selected. -/
def siteLikelihood (C S : ℕ) (w freqs : ℕ → ℚ) (Qp : ℕ → ℕ → ℚ) : ℚ :=
  ∑ c ∈ Finset.range C, w c * ∑ a ∈ Finset.range S, freqs a * Qp c a

/-- Modelled from the spec: the pattern loop of `calcRootLogLikelihoods`.
Pattern by pattern it accumulates `W_p * (lg L_p + sigma_p)` into the
running sum and raises the floating-point error flag whenever the scaled
site likelihood `L_p` is not positive. -/
def rootLogLikelihoodLoop (lg : ℚ → ℚ) (C S : ℕ) (w freqs : ℕ → ℚ)
    (Q : ℕ → ℕ → ℕ → ℚ) (W : ℕ → ℚ) (sigma : ℕ → ℚ) : ℕ → ℚ × Bool
  | 0 => (0, false)
  | p + 1 =>
    let prev := rootLogLikelihoodLoop lg C S w freqs Q W sigma p
    let L := siteLikelihood C S w freqs (Q p)
    (prev.1 + W p * (lg L + sigma p), prev.2 || decide (L ≤ 0))

/-- Modelled from the spec: `calculateRootLogLikelihoods` for a single
buffer (`count = 1`), which forwards to `calcRootLogLikelihoods`. The
cumulative scale vector is optional (`BEAGLE_OP_NONE` disables it); the
result is the pair of the integer return code and the value written to
`outSumLogLikelihood`. -/
def calcRootLogLikelihoods (lg : ℚ → ℚ) (P C S : ℕ) (w freqs : ℕ → ℚ)
    (Q : ℕ → ℕ → ℕ → ℚ) (W : ℕ → ℚ) (sigma : Option (ℕ → ℚ)) : Int × ℚ :=
  let sigv : ℕ → ℚ := fun p => match sigma with | none => 0 | some s => s p
  let res := rootLogLikelihoodLoop lg C S w freqs Q W sigv P
  (if res.2 then BEAGLE_ERROR_FLOATING_POINT else BEAGLE_SUCCESS, res.1)

lemma rootLogLikelihoodLoop_fst (lg : ℚ → ℚ) (C S : ℕ) (w freqs : ℕ → ℚ)
    (Q : ℕ → ℕ → ℕ → ℚ) (W : ℕ → ℚ) (sigma : ℕ → ℚ) (P : ℕ) :
    (rootLogLikelihoodLoop lg C S w freqs Q W sigma P).1 =
      ∑ p ∈ Finset.range P, W p * (lg (siteLikelihood C S w freqs (Q p)) + sigma p) := by
  induction P with
  | zero => simp [rootLogLikelihoodLoop]
  | succ n ih => simp [rootLogLikelihoodLoop, Finset.sum_range_succ, ih]

lemma rootLogLikelihoodLoop_snd (lg : ℚ → ℚ) (C S : ℕ) (w freqs : ℕ → ℚ)
    (Q : ℕ → ℕ → ℕ → ℚ) (W : ℕ → ℚ) (sigma : ℕ → ℚ) (P : ℕ) :
    (rootLogLikelihoodLoop lg C S w freqs Q W sigma P).2 = true ↔
      ∃ p, p < P ∧ siteLikelihood C S w freqs (Q p) ≤ 0 := by
  induction P with
  | zero => simp [rootLogLikelihoodLoop]
  | succ n ih =>
    simp only [rootLogLikelihoodLoop, Bool.or_eq_true, decide_eq_true_eq, ih]
    constructor
    · rintro (⟨p, hp, hL⟩ | hL)
      · exact ⟨p, Nat.lt_succ_of_lt hp, hL⟩
      · exact ⟨n, Nat.lt_succ_self n, hL⟩
    · rintro ⟨p, hp, hL⟩
      rcases Nat.lt_succ_iff_lt_or_eq.mp hp with h | h
      · exact Or.inl ⟨p, h, hL⟩
      · exact Or.inr (h ▸ hL)

/-- C1: `calculateRootLogLikelihoods` writes into `outSumLogLikelihood` the
weighted aggregate `sum over p of W_p * l_p`, where for each pattern
`L_p = sum over c of w_c * sum over a of freqs_a * Q[c,p,a]` and
`l_p = lg L_p + sigma_p`, the scale term `sigma_p` being `0` when no
cumulative scale index is given. -/
theorem calculateRootLogLikelihoods_value (lg : ℚ → ℚ) (P C S : ℕ)
    (w freqs : ℕ → ℚ) (Q : ℕ → ℕ → ℕ → ℚ) (W : ℕ → ℚ) (sigma : Option (ℕ → ℚ)) :
    (calcRootLogLikelihoods lg P C S w freqs Q W sigma).2 =
      ∑ p ∈ Finset.range P, W p *
        (lg (∑ c ∈ Finset.range C, w c * ∑ a ∈ Finset.range S, freqs a * Q p c a) +
          (match sigma with | none => 0 | some s => s p)) := by
  show (rootLogLikelihoodLoop lg C S w freqs Q W _ P).1 = _
  rw [rootLogLikelihoodLoop_fst]
  rfl

/-- C3: if the scaled site likelihood `L_p` is not positive for some
pattern `p`, the reduction returns `BEAGLE_ERROR_FLOATING_POINT`, a
negative integer, rather than success. -/
theorem calculateRootLogLikelihoods_floating_point_error (lg : ℚ → ℚ)
    (P C S : ℕ) (w freqs : ℕ → ℚ) (Q : ℕ → ℕ → ℕ → ℚ) (W : ℕ → ℚ)
    (sigma : Option (ℕ → ℚ))
    (h : ∃ p, p < P ∧ siteLikelihood C S w freqs (Q p) ≤ 0) :
    (calcRootLogLikelihoods lg P C S w freqs Q W sigma).1 = BEAGLE_ERROR_FLOATING_POINT ∧
      (calcRootLogLikelihoods lg P C S w freqs Q W sigma).1 < 0 ∧
      (calcRootLogLikelihoods lg P C S w freqs Q W sigma).1 ≠ BEAGLE_SUCCESS := by
  have hflag : (rootLogLikelihoodLoop lg C S w freqs Q W
      (fun p => match sigma with | none => 0 | some s => s p) P).2 = true :=
    (rootLogLikelihoodLoop_snd lg C S w freqs Q W _ P).mpr h
  have hfst : (calcRootLogLikelihoods lg P C S w freqs Q W sigma).1 =
      BEAGLE_ERROR_FLOATING_POINT := by
    show (if (rootLogLikelihoodLoop lg C S w freqs Q W _ P).2 then
        BEAGLE_ERROR_FLOATING_POINT else BEAGLE_SUCCESS) = _
    rw [hflag]
    rfl
  refine ⟨hfst, ?_, ?_⟩
  · rw [hfst]; norm_num [BEAGLE_ERROR_FLOATING_POINT]
  · rw [hfst]; norm_num [BEAGLE_ERROR_FLOATING_POINT, BEAGLE_SUCCESS]

/-- Witness for C3: with one pattern and empty category and state ranges
the site likelihood is the empty sum `0 ≤ 0`, and the reduction returns
the floating-point error code. -/
theorem calculateRootLogLikelihoods_floating_point_error_witness :
    (calcRootLogLikelihoods id 1 0 0 (fun _ => 0) (fun _ => 0) (fun _ _ _ => 0)
        (fun _ => 0) none).1 = BEAGLE_ERROR_FLOATING_POINT :=
  (calculateRootLogLikelihoods_floating_point_error id 1 0 0 (fun _ => 0) (fun _ => 0)
    (fun _ _ _ => 0) (fun _ => 0) none
    ⟨0, Nat.zero_lt_one, by simp [siteLikelihood]⟩).1

/-! ### Scale-factor accumulator (spec section 4.7)

`accumulateScaleFactors` (header lines 309-311) and `removeScaleFactors`
(lines 318-320) have their bodies in `BeagleCPUImpl.hpp`, outside the
snapshot: modelled from the spec. The bank of scale buffers is a function
from buffer index and pattern to the stored log-scale. -/

/-- Modelled from the spec: `accumulateScaleFactors(indices, count,
cumulative)` adds, one source buffer at a time, `scaleBuffer[i][p]` into
the cumulative buffer at every pattern `p`. -/
def accumulateScaleFactors (bufs : ℕ → ℕ → ℚ) (indices : List ℕ) (cum : ℕ) :
    ℕ → ℕ → ℚ :=
  indices.foldl (fun B i => Function.update B cum (fun p => B cum p + B i p)) bufs

/-- Modelled from the spec: `removeScaleFactors` subtracts the same
quantities that `accumulateScaleFactors` adds. -/
def removeScaleFactors (bufs : ℕ → ℕ → ℚ) (indices : List ℕ) (cum : ℕ) :
    ℕ → ℕ → ℚ :=
  indices.foldl (fun B i => Function.update B cum (fun p => B cum p - B i p)) bufs

lemma accumulateScaleFactors_apply_ne (bufs : ℕ → ℕ → ℚ) (indices : List ℕ)
    (cum k : ℕ) (hk : k ≠ cum) :
    accumulateScaleFactors bufs indices cum k = bufs k := by
  induction indices generalizing bufs with
  | nil => rfl
  | cons i rest ih =>
    show accumulateScaleFactors (Function.update bufs cum fun p => bufs cum p + bufs i p)
        rest cum k = bufs k
    rw [ih, Function.update_noteq hk]

lemma removeScaleFactors_apply_ne (bufs : ℕ → ℕ → ℚ) (indices : List ℕ)
    (cum k : ℕ) (hk : k ≠ cum) :
    removeScaleFactors bufs indices cum k = bufs k := by
  induction indices generalizing bufs with
  | nil => rfl
  | cons i rest ih =>
    show removeScaleFactors (Function.update bufs cum fun p => bufs cum p - bufs i p)
        rest cum k = bufs k
    rw [ih, Function.update_noteq hk]

lemma accumulateScaleFactors_apply_cum (bufs : ℕ → ℕ → ℚ) (indices : List ℕ)
    (cum : ℕ) (hc : cum ∉ indices) (p : ℕ) :
    accumulateScaleFactors bufs indices cum cum p =
      bufs cum p + (indices.map fun i => bufs i p).sum := by
  induction indices generalizing bufs with
  | nil => simp [accumulateScaleFactors]
  | cons i rest ih =>
    have hi : i ≠ cum := fun h => hc (h ▸ List.mem_cons_self i rest)
    have hrest : cum ∉ rest := fun h => hc (List.mem_cons_of_mem i h)
    show accumulateScaleFactors (Function.update bufs cum fun q => bufs cum q + bufs i q)
        rest cum cum p = _
    rw [ih _ hrest]
    have hsrc : ∀ j ∈ rest, ∀ q,
        Function.update bufs cum (fun q => bufs cum q + bufs i q) j q = bufs j q := by
      intro j hj q
      have hjc : j ≠ cum := fun h => hrest (h ▸ hj)
      rw [Function.update_noteq hjc]
    have hmap : (rest.map fun j =>
        Function.update bufs cum (fun q => bufs cum q + bufs i q) j p) =
        rest.map fun j => bufs j p := by
      apply List.map_congr_left
      intro j hj
      exact hsrc j hj p
    rw [hmap, Function.update_same, List.map_cons, List.sum_cons]
    ring

lemma removeScaleFactors_apply_cum (bufs : ℕ → ℕ → ℚ) (indices : List ℕ)
    (cum : ℕ) (hc : cum ∉ indices) (p : ℕ) :
    removeScaleFactors bufs indices cum cum p =
      bufs cum p - (indices.map fun i => bufs i p).sum := by
  induction indices generalizing bufs with
  | nil => simp [removeScaleFactors]
  | cons i rest ih =>
    have hi : i ≠ cum := fun h => hc (h ▸ List.mem_cons_self i rest)
    have hrest : cum ∉ rest := fun h => hc (List.mem_cons_of_mem i h)
    show removeScaleFactors (Function.update bufs cum fun q => bufs cum q - bufs i q)
        rest cum cum p = _
    rw [ih _ hrest]
    have hmap : (rest.map fun j =>
        Function.update bufs cum (fun q => bufs cum q - bufs i q) j p) =
        rest.map fun j => bufs j p := by
      apply List.map_congr_left
      intro j hj
      have hjc : j ≠ cum := fun h => hrest (h ▸ hj)
      rw [Function.update_noteq hjc]
    rw [hmap, Function.update_same, List.map_cons, List.sum_cons]
    ring

lemma remove_accumulate_cancel (bufs : ℕ → ℕ → ℚ) (indices : List ℕ) (cum : ℕ)
    (hc : cum ∉ indices) :
    removeScaleFactors (accumulateScaleFactors bufs indices cum) indices cum = bufs := by
  funext k p
  by_cases hk : k = cum
  · rw [hk, removeScaleFactors_apply_cum _ _ _ hc,
        accumulateScaleFactors_apply_cum _ _ _ hc]
    have hmap : (indices.map fun i => accumulateScaleFactors bufs indices cum i p) =
        indices.map fun i => bufs i p := by
      apply List.map_congr_left
      intro j hj
      have hjc : j ≠ cum := fun h => hc (h ▸ hj)
      rw [accumulateScaleFactors_apply_ne _ _ _ _ hjc]
    rw [hmap]
    ring
  · rw [removeScaleFactors_apply_ne _ _ _ _ hk,
        accumulateScaleFactors_apply_ne _ _ _ _ hk]

/-- C4: an `accumulateScaleFactors` followed by a `removeScaleFactors`
with the same scale-buffer indices and the same cumulative index restores
every scale buffer exactly — accumulation adds the per-pattern log-scales
of the listed buffers and removal subtracts the same quantities — so the
root log-likelihood computed afterwards equals the one computed before
(exact equality in the rational model, hence within any tolerance). -/
theorem scale_factor_neutrality (bufs : ℕ → ℕ → ℚ) (indices : List ℕ) (cum : ℕ)
    (hc : cum ∉ indices) (lg : ℚ → ℚ) (P C S : ℕ) (w freqs : ℕ → ℚ)
    (Q : ℕ → ℕ → ℕ → ℚ) (W : ℕ → ℚ) :
    (∀ p, accumulateScaleFactors bufs indices cum cum p =
        bufs cum p + (indices.map fun i => bufs i p).sum) ∧
    removeScaleFactors (accumulateScaleFactors bufs indices cum) indices cum = bufs ∧
    (calcRootLogLikelihoods lg P C S w freqs Q W
        (some (removeScaleFactors (accumulateScaleFactors bufs indices cum) indices cum cum))).2 =
      (calcRootLogLikelihoods lg P C S w freqs Q W (some (bufs cum))).2 := by
  refine ⟨fun p => accumulateScaleFactors_apply_cum bufs indices cum hc p,
    remove_accumulate_cancel bufs indices cum hc, ?_⟩
  rw [remove_accumulate_cancel bufs indices cum hc]

/-- Witness for C4: a concrete bank of scale buffers, source index `0`,
cumulative index `1`, one pattern: the accumulate/remove round trip leaves
the root log-likelihood unchanged. -/
theorem scale_factor_neutrality_witness :
    (calcRootLogLikelihoods id 1 1 1 (fun _ => 1) (fun _ => 1) (fun _ _ _ => 1)
        (fun _ => 1)
        (some (removeScaleFactors
          (accumulateScaleFactors (fun (k p : ℕ) => (k : ℚ) + p) [0] 1) [0] 1 1))).2 =
      (calcRootLogLikelihoods id 1 1 1 (fun _ => 1) (fun _ => 1) (fun _ _ _ => 1)
        (fun _ => 1) (some ((fun (k p : ℕ) => (k : ℚ) + p) 1))).2 :=
  (scale_factor_neutrality (fun (k p : ℕ) => (k : ℚ) + p) [0] 1 (by decide) id 1 1 1
    (fun _ => 1) (fun _ => 1) (fun _ _ _ => 1) (fun _ => 1)).2.2

/-! ### Partitioned root reduction (spec section 4.5, per-partition variants)

`calculateRootLogLikelihoodsByPartition` (header lines 348-356) has its
body in `BeagleCPUImpl.hpp`, outside the snapshot: modelled from the spec.
A partition `k` covers the post-reorder pattern range
`[starts k, starts (k+1))`. -/

/-- Modelled from the spec: the root reduction restricted to the pattern
range `[startPat, stopPat)`. -/
def rootLogLikelihoodRange (lg : ℚ → ℚ) (C S : ℕ) (w freqs : ℕ → ℚ)
    (Q : ℕ → ℕ → ℕ → ℚ) (W : ℕ → ℚ) (sigma : ℕ → ℚ) (startPat stopPat : ℕ) : ℚ :=
  ∑ p ∈ Finset.Ico startPat stopPat,
    W p * (lg (siteLikelihood C S w freqs (Q p)) + sigma p)

/-- Modelled from the spec: the partitioned reduction emits, for each of
the `K` partitions, the sum over its own pattern range into
`outSumLogLikelihoodByPartition`, and the sum over all `P` patterns into
the global `outSumLogLikelihood`. -/
def calcRootLogLikelihoodsByPartition (lg : ℚ → ℚ) (C S : ℕ) (w freqs : ℕ → ℚ)
    (Q : ℕ → ℕ → ℕ → ℚ) (W : ℕ → ℚ) (sigma : ℕ → ℚ) (starts : ℕ → ℕ)
    (K P : ℕ) : (ℕ → ℚ) × ℚ :=
  (fun k => rootLogLikelihoodRange lg C S w freqs Q W sigma (starts k) (starts (k + 1)),
   rootLogLikelihoodRange lg C S w freqs Q W sigma 0 P)

lemma starts_le_of_steps (starts : ℕ → ℕ) (K : ℕ)
    (hmono : ∀ k, k < K → starts k ≤ starts (k + 1)) (k : ℕ) (hk : k ≤ K) :
    starts 0 ≤ starts k := by
  induction k with
  | zero => exact le_refl _
  | succ n ih =>
    exact le_trans (ih (Nat.le_of_succ_le hk)) (hmono n (Nat.lt_of_succ_le hk))

lemma sum_ranges_eq_range (f : ℕ → ℚ) (starts : ℕ → ℕ) (K : ℕ)
    (hmono : ∀ k, k < K → starts k ≤ starts (k + 1)) :
    ∑ k ∈ Finset.range K, ∑ p ∈ Finset.Ico (starts k) (starts (k + 1)), f p =
      ∑ p ∈ Finset.Ico (starts 0) (starts K), f p := by
  induction K with
  | zero => simp
  | succ n ih =>
    have hmono' : ∀ k, k < n → starts k ≤ starts (k + 1) := fun k hk =>
      hmono k (Nat.lt_succ_of_lt hk)
    rw [Finset.sum_range_succ, ih hmono']
    exact Finset.sum_Ico_consecutive f
      (starts_le_of_steps starts n hmono' n (le_refl n))
      (hmono n (Nat.lt_succ_self n))

/-- C5: when the partition ranges `[starts k, starts (k+1))`, `k < K`,
tile the full pattern range `[0, P)`, the sum of the per-partition sums
equals the global `outSumLogLikelihood` written by the same call, which in
turn equals the unpartitioned reduction (exact equality in the rational
model). -/
theorem partition_additivity (lg : ℚ → ℚ) (C S : ℕ) (w freqs : ℕ → ℚ)
    (Q : ℕ → ℕ → ℕ → ℚ) (W : ℕ → ℚ) (sigma : ℕ → ℚ) (starts : ℕ → ℕ) (K P : ℕ)
    (h0 : starts 0 = 0) (hK : starts K = P)
    (hmono : ∀ k, k < K → starts k ≤ starts (k + 1)) :
    ∑ k ∈ Finset.range K,
        (calcRootLogLikelihoodsByPartition lg C S w freqs Q W sigma starts K P).1 k =
      (calcRootLogLikelihoodsByPartition lg C S w freqs Q W sigma starts K P).2 ∧
    (calcRootLogLikelihoodsByPartition lg C S w freqs Q W sigma starts K P).2 =
      (calcRootLogLikelihoods lg P C S w freqs Q W (some sigma)).2 := by
  constructor
  · show ∑ k ∈ Finset.range K,
        rootLogLikelihoodRange lg C S w freqs Q W sigma (starts k) (starts (k + 1)) =
      rootLogLikelihoodRange lg C S w freqs Q W sigma 0 P
    unfold rootLogLikelihoodRange
    rw [sum_ranges_eq_range _ starts K hmono, h0, hK]
  · show rootLogLikelihoodRange lg C S w freqs Q W sigma 0 P = _
    rw [calculateRootLogLikelihoods_value]
    unfold rootLogLikelihoodRange siteLikelihood
    rw [Finset.range_eq_Ico]

/-- Witness for C5: two partitions `[0,1)` and `[1,3)` covering three
patterns; the per-partition sums add up to the global sum. -/
theorem partition_additivity_witness :
    ∑ k ∈ Finset.range 2,
        (calcRootLogLikelihoodsByPartition id 1 1 (fun _ => 1) (fun _ => 1)
          (fun _ _ _ => 1) (fun _ => 1) (fun _ => 0) (fun k => if k = 0 then 0 else 2 * k - 1)
          2 3).1 k =
      (calcRootLogLikelihoodsByPartition id 1 1 (fun _ => 1) (fun _ => 1)
        (fun _ _ _ => 1) (fun _ => 1) (fun _ => 0) (fun k => if k = 0 then 0 else 2 * k - 1)
        2 3).2 :=
  (partition_additivity id 1 1 (fun _ => 1) (fun _ => 1) (fun _ _ _ => 1) (fun _ => 1)
    (fun _ => 0) (fun k => if k = 0 then 0 else 2 * k - 1) 2 3 (by decide) (by decide)
    (by decide)).1

/-! ### The states-by-states combine kernel (spec section 4.4)

`calcStatesStates` (header lines 423-429) has its body in
`BeagleCPUImpl.hpp`, outside the snapshot: modelled from the spec.
Buffers are flat arrays, embedded as total functions from the flat index.
A transition-matrix buffer holds, per category, a flattened
`kStateCount x (kStateCount + T_PAD)` block (header lines 124-127); a
partials buffer holds, per category, `kPaddedPatternCount` rows of
`kStateCount + P_PAD` entries, and with `P_PAD_DEFAULT = 0` a row is
exactly `kStateCount` entries (spec section 3). -/

/-- Entry of a flat transition-matrix buffer at category `c`, row `a`,
column `state`; rows are padded to `S + T_PAD_DEFAULT` entries. -/
def matrixEntry (S : ℕ) (M : ℕ → ℚ) (c a state : ℕ) : ℚ :=
  M ((c * S + a) * (S + T_PAD_DEFAULT) + state)

/-- Flat index of entry `(c, p, a)` of a partials buffer with padded
pattern count `PP` and `P_PAD_DEFAULT = 0` row width `S`. -/
def destIndex (PP S c p a : ℕ) : ℕ := (c * PP + p) * S + a

/-- Modelled from the spec: the states-by-states combine kernel over the
pattern range `[startPat, endPat)`. For every category `c < C`, pattern
`p` in range and state `a < S` the destination entry becomes
`M1[c, a, s1 p] * M2[c, a, s2 p]`; all other entries keep their previous
value. -/
def calcStatesStates (C PP S : ℕ) (M1 M2 : ℕ → ℚ) (s1 s2 : ℕ → ℕ)
    (startPat endPat : ℕ) (dest : ℕ → ℚ) : ℕ → ℚ :=
  fun idx =>
    if idx / S / PP < C ∧ startPat ≤ idx / S % PP ∧ idx / S % PP < endPat ∧
        idx / S % PP < PP then
      matrixEntry S M1 (idx / S / PP) (idx % S) (s1 (idx / S % PP)) *
        matrixEntry S M2 (idx / S / PP) (idx % S) (s2 (idx / S % PP))
    else dest idx

lemma destIndex_decode (PP S c p a : ℕ) (ha : a < S) (hp : p < PP) :
    destIndex PP S c p a % S = a ∧ destIndex PP S c p a / S % PP = p ∧
      destIndex PP S c p a / S / PP = c := by
  have hS : 0 < S := Nat.lt_of_le_of_lt (Nat.zero_le a) ha
  have hdiv : destIndex PP S c p a / S = c * PP + p := by
    unfold destIndex
    rw [mul_comm (c * PP + p) S, Nat.mul_add_div hS, Nat.div_eq_of_lt ha, Nat.add_zero]
  have hmod : destIndex PP S c p a % S = a := by
    unfold destIndex
    rw [mul_comm (c * PP + p) S, Nat.mul_add_mod, Nat.mod_eq_of_lt ha]
  refine ⟨hmod, ?_, ?_⟩
  · rw [hdiv, mul_comm c PP, Nat.mul_add_mod, Nat.mod_eq_of_lt hp]
  · rw [hdiv, mul_comm c PP, Nat.mul_add_div (Nat.lt_of_le_of_lt (Nat.zero_le p) hp),
        Nat.div_eq_of_lt hp, Nat.add_zero]

/-- C2: for every category `c < C`, pattern `p` of the operation range and
state `a < S`, the states-by-states kernel writes
`D[c,p,a] = M1[c,a,s1_p] * M2[c,a,s2_p]`; and when the transition-matrix
buffer guarantees `1.0` in its padding column `S`, a tip whose state is
the ambiguity sentinel `S` contributes a factor of `1`. -/
theorem calcStatesStates_combine (C PP S : ℕ) (M1 M2 : ℕ → ℚ) (s1 s2 : ℕ → ℕ)
    (startPat endPat : ℕ) (dest : ℕ → ℚ) (c p a : ℕ) (hc : c < C)
    (hp1 : startPat ≤ p) (hp2 : p < endPat) (hpPP : p < PP) (ha : a < S) :
    calcStatesStates C PP S M1 M2 s1 s2 startPat endPat dest (destIndex PP S c p a) =
      matrixEntry S M1 c a (s1 p) * matrixEntry S M2 c a (s2 p) ∧
    ((∀ i j, matrixEntry S M1 i j S = 1) → s1 p = S →
      calcStatesStates C PP S M1 M2 s1 s2 startPat endPat dest (destIndex PP S c p a) =
        matrixEntry S M2 c a (s2 p)) := by
  obtain ⟨hmod, hdm, hdd⟩ := destIndex_decode PP S c p a ha hpPP
  have hval : calcStatesStates C PP S M1 M2 s1 s2 startPat endPat dest
      (destIndex PP S c p a) =
      matrixEntry S M1 c a (s1 p) * matrixEntry S M2 c a (s2 p) := by
    unfold calcStatesStates
    rw [hmod, hdm, hdd]
    rw [if_pos ⟨hc, hp1, hp2, hpPP⟩]
  refine ⟨hval, fun hpad hs1 => ?_⟩
  rw [hval, hs1, hpad c a, one_mul]

/-- Witness for C2: one category, one padded pattern, one state, matrices
constant `1`; the written entry equals the product and the ambiguity case
collapses to the second factor. -/
theorem calcStatesStates_combine_witness :
    calcStatesStates 1 1 1 (fun _ => 1) (fun _ => 1) (fun _ => 1) (fun _ => 0) 0 1
        (fun _ => 0) (destIndex 1 1 0 0 0) =
      matrixEntry 1 (fun _ => 1) 0 0 1 * matrixEntry 1 (fun _ => 1) 0 0 0 :=
  (calcStatesStates_combine 1 1 1 (fun _ => 1) (fun _ => 1) (fun _ => 1) (fun _ => 0)
    0 1 (fun _ => 0) 0 0 0 (by decide) (by decide) (by decide) (by decide) (by decide)).1

/-- C6 (functional form): splitting the kernel of one operation across the
disjoint pattern sub-ranges `[startPat, m)` and `[m, endPat)` and running
the two sub-ranges in either order writes exactly the destination buffer
of the serial run over `[startPat, endPat)`. -/
theorem threading_split_equivalence (C PP S : ℕ) (M1 M2 : ℕ → ℚ) (s1 s2 : ℕ → ℕ)
    (startPat m endPat : ℕ) (dest : ℕ → ℚ) (h1 : startPat ≤ m) (h2 : m ≤ endPat) :
    ∀ idx,
      calcStatesStates C PP S M1 M2 s1 s2 startPat m
          (calcStatesStates C PP S M1 M2 s1 s2 m endPat dest) idx =
        calcStatesStates C PP S M1 M2 s1 s2 startPat endPat dest idx ∧
      calcStatesStates C PP S M1 M2 s1 s2 m endPat
          (calcStatesStates C PP S M1 M2 s1 s2 startPat m dest) idx =
        calcStatesStates C PP S M1 M2 s1 s2 startPat endPat dest idx := by
  intro idx
  unfold calcStatesStates
  constructor <;> split_ifs <;> first | rfl | omega

/-- Witness for C6: a concrete split of two patterns at `m = 1` agrees
with the serial run at flat index `0`. -/
theorem threading_split_equivalence_witness :
    calcStatesStates 1 2 1 (fun _ => 1) (fun _ => 1) (fun _ => 0) (fun _ => 0) 0 1
        (calcStatesStates 1 2 1 (fun _ => 1) (fun _ => 1) (fun _ => 0) (fun _ => 0) 1 2
          (fun _ => 0)) 0 =
      calcStatesStates 1 2 1 (fun _ => 1) (fun _ => 1) (fun _ => 0) (fun _ => 0) 0 2
        (fun _ => 0) 0 :=
  (threading_split_equivalence 1 2 1 (fun _ => 1) (fun _ => 1) (fun _ => 0) (fun _ => 0)
    0 1 2 (fun _ => 0) (by decide) (by decide) 0).1

/-! ### Auto-threading thresholds (header lines 58-61, spec section 4.6)

The decision logic lives in `BeagleCPUImpl.hpp`, outside the snapshot; it
is modelled from the spec against the literal header constants. -/

/-- Modelled from the spec: the minimum pattern count below which
auto-threading is disabled — `MIN_PATTERN_COUNT_LOW` on many-core CPUs
(hardware concurrency at or above `HW_THREAD_COUNT_THRESHOLD`),
`MIN_PATTERN_COUNT_HIGH` on few-core CPUs. -/
def kMinPatternCount (hwThreadCount : ℕ) : ℕ :=
  if BEAGLE_CPU_ASYNC_HW_THREAD_COUNT_THRESHOLD ≤ hwThreadCount then
    BEAGLE_CPU_ASYNC_MIN_PATTERN_COUNT_LOW
  else
    BEAGLE_CPU_ASYNC_MIN_PATTERN_COUNT_HIGH

/-- Modelled from the spec: auto-threading of updatePartials is enabled
iff the pattern count reaches the hardware-dependent minimum. -/
def autoThreadingEnabled (hwThreadCount patternCount : ℕ) : Bool :=
  decide (kMinPatternCount hwThreadCount ≤ patternCount)

/-- Modelled from the spec: all cores are used only above
`LIMIT_PATTERN_COUNT` patterns. -/
def useAllCores (patternCount : ℕ) : Bool :=
  decide (BEAGLE_CPU_ASYNC_LIMIT_PATTERN_COUNT < patternCount)

/-- C7: the literal thresholds govern auto-threading: hardware concurrency
at or above `16` selects the many-core minimum `256`, below `16` the
few-core minimum `768`; threading is disabled exactly when the pattern
count is below that minimum; and all cores are used exactly above
`262144` patterns. -/
theorem auto_threading_thresholds (hwThreadCount patternCount : ℕ) :
    BEAGLE_CPU_ASYNC_HW_THREAD_COUNT_THRESHOLD = 16 ∧
    BEAGLE_CPU_ASYNC_MIN_PATTERN_COUNT_LOW = 256 ∧
    BEAGLE_CPU_ASYNC_MIN_PATTERN_COUNT_HIGH = 768 ∧
    BEAGLE_CPU_ASYNC_LIMIT_PATTERN_COUNT = 262144 ∧
    kMinPatternCount hwThreadCount = (if 16 ≤ hwThreadCount then 256 else 768) ∧
    (autoThreadingEnabled hwThreadCount patternCount = false ↔
      patternCount < kMinPatternCount hwThreadCount) ∧
    (useAllCores patternCount = true ↔ 262144 < patternCount) := by
  refine ⟨rfl, rfl, rfl, rfl, rfl, ?_, ?_⟩
  · simp [autoThreadingEnabled, not_le]
  · simp [useAllCores, BEAGLE_CPU_ASYNC_LIMIT_PATTERN_COUNT]

/-! ### Partials buffer sizes over the instance lifetime (header lines 74-85)

`createInstance` and the buffer writers live in `BeagleCPUImpl.hpp`,
outside the snapshot: modelled from the spec. The instance keeps the
dimension fields of the header and a bank of `kBufferCount` partials
buffers, each a dense list of rationals. -/

/-- Modelled from the spec: the padded pattern count is the pattern count
rounded up to the next multiple of the alignment modulus (header line 75,
spec section 3). -/
def paddedPatternCount (modulus P : ℕ) : ℕ :=
  if P % modulus = 0 then P else P + (modulus - P % modulus)

/-- The dimension and buffer state of one CPU instance (header lines
70-96 and 116). -/
structure CPUInstance where
  kCategoryCount : ℕ
  kPatternCount : ℕ
  kPaddedPatternCount : ℕ
  kStateCount : ℕ
  kBufferCount : ℕ
  gPartials : ℕ → List ℚ

/-- Header line 85: the common size of every partials buffer, category
count times padded pattern count times state count. -/
def kPartialsSize (inst : CPUInstance) : ℕ :=
  inst.kCategoryCount * (inst.kPaddedPatternCount * inst.kStateCount)

/-- Modelled from the spec: `createInstance` allocates each of the
`kBufferCount` partials buffers once, as a dense zero-initialised array of
`kPartialsSize` reals. -/
def createInstance (C P S B modulus : ℕ) : CPUInstance :=
  { kCategoryCount := C
    kPatternCount := P
    kPaddedPatternCount := paddedPatternCount modulus P
    kStateCount := S
    kBufferCount := B
    gPartials := fun _ => List.replicate (C * (paddedPatternCount modulus P * S)) 0 }

/-- The operations that touch partials buffers after creation: uploading a
buffer (`setPartials` / `setTipPartials`) and a combine kernel writing a
destination from a states-by-states operation. -/
inductive InstanceOp where
  | setBuffer (bufferIndex : ℕ) (vals : ℕ → ℚ)
  | combine (dest : ℕ) (M1 M2 : ℕ → ℚ) (s1 s2 : ℕ → ℕ)

/-- Modelled from the spec: each operation overwrites exactly one partials
buffer with a dense array of `kPartialsSize` reals; the combine kernel
writes through `calcStatesStates` over the full padded pattern range. -/
def applyOp (inst : CPUInstance) : InstanceOp → CPUInstance
  | .setBuffer i vals =>
    let newBuf := List.ofFn fun j : Fin (kPartialsSize inst) => vals j.1
    { inst with gPartials := Function.update inst.gPartials i newBuf }
  | .combine dest M1 M2 s1 s2 =>
    let newBuf := List.ofFn fun j : Fin (kPartialsSize inst) =>
      calcStatesStates inst.kCategoryCount inst.kPaddedPatternCount inst.kStateCount
        M1 M2 s1 s2 0 inst.kPaddedPatternCount
        (fun n => (inst.gPartials dest).getD n 0) j.1
    { inst with gPartials := Function.update inst.gPartials dest newBuf }

/-- A sequence of operations applied to an instance. -/
def runOps (inst : CPUInstance) (ops : List InstanceOp) : CPUInstance :=
  ops.foldl applyOp inst

lemma applyOp_size (inst : CPUInstance) (op : InstanceOp) :
    kPartialsSize (applyOp inst op) = kPartialsSize inst := by
  cases op <;> rfl

lemma applyOp_length (inst : CPUInstance) (op : InstanceOp)
    (h : ∀ b, (inst.gPartials b).length = kPartialsSize inst) (b : ℕ) :
    ((applyOp inst op).gPartials b).length = kPartialsSize (applyOp inst op) := by
  rw [applyOp_size]
  cases op with
  | setBuffer i vals =>
    show (Function.update inst.gPartials i _ b).length = kPartialsSize inst
    by_cases hb : b = i
    · rw [hb, Function.update_same, List.length_ofFn]
    · rw [Function.update_noteq hb]
      exact h b
  | combine dest M1 M2 s1 s2 =>
    show (Function.update inst.gPartials dest _ b).length = kPartialsSize inst
    by_cases hb : b = dest
    · rw [hb, Function.update_same, List.length_ofFn]
    · rw [Function.update_noteq hb]
      exact h b

lemma runOps_length (inst : CPUInstance) (ops : List InstanceOp)
    (h : ∀ b, (inst.gPartials b).length = kPartialsSize inst) :
    (∀ b, ((runOps inst ops).gPartials b).length = kPartialsSize (runOps inst ops)) ∧
      kPartialsSize (runOps inst ops) = kPartialsSize inst := by
  induction ops generalizing inst with
  | nil => exact ⟨h, rfl⟩
  | cons op rest ih =>
    have hstep := ih (applyOp inst op) (applyOp_length inst op h)
    exact ⟨hstep.1, hstep.2.trans (applyOp_size inst op)⟩

lemma paddedPatternCount_ge (modulus P : ℕ) : P ≤ paddedPatternCount modulus P := by
  unfold paddedPatternCount
  split_ifs <;> omega

lemma paddedPatternCount_dvd (modulus P : ℕ) (hm : 0 < modulus) :
    paddedPatternCount modulus P % modulus = 0 := by
  unfold paddedPatternCount
  split_ifs with h
  · exact h
  · have hlt : P % modulus < modulus := Nat.mod_lt P hm
    have hdm : modulus * (P / modulus) + P % modulus = P := Nat.div_add_mod P modulus
    have hsucc : modulus * (P / modulus + 1) = modulus * (P / modulus) + modulus := by
      ring
    have : P + (modulus - P % modulus) = modulus * (P / modulus + 1) := by omega
    rw [this, Nat.mul_mod_right]

/-- C8: starting from `createInstance` and across any sequence of buffer
uploads and combine operations, every partials buffer `b < B` has length
exactly `C * (paddedPatternCount * S)`; the padded pattern count is at
least `P` and a multiple of the alignment modulus; and padding patterns
carrying zero site weight leave the reduction unaffected: the sum over the
padded range equals the sum over the first `P` patterns. -/
theorem partials_buffer_size_invariant (C P S B modulus : ℕ) (ops : List InstanceOp)
    (b : ℕ) (hb : b < B) (hm : 0 < modulus) (lg : ℚ → ℚ) (w freqs : ℕ → ℚ)
    (Q : ℕ → ℕ → ℕ → ℚ) (W : ℕ → ℚ) (sigma : ℕ → ℚ) (hW : ∀ p, P ≤ p → W p = 0) :
    ((runOps (createInstance C P S B modulus) ops).gPartials b).length =
      C * (paddedPatternCount modulus P * S) ∧
    P ≤ paddedPatternCount modulus P ∧
    paddedPatternCount modulus P % modulus = 0 ∧
    rootLogLikelihoodRange lg C S w freqs Q W sigma 0 (paddedPatternCount modulus P) =
      rootLogLikelihoodRange lg C S w freqs Q W sigma 0 P := by
  have hinit : ∀ i, ((createInstance C P S B modulus).gPartials i).length =
      kPartialsSize (createInstance C P S B modulus) := by
    intro i
    show (List.replicate (C * (paddedPatternCount modulus P * S)) (0 : ℚ)).length = _
    rw [List.length_replicate]
    rfl
  obtain ⟨hlen, hsize⟩ := runOps_length (createInstance C P S B modulus) ops hinit
  refine ⟨(hlen b).trans hsize, paddedPatternCount_ge modulus P,
    paddedPatternCount_dvd modulus P hm, ?_⟩
  unfold rootLogLikelihoodRange
  rw [← Finset.sum_Ico_consecutive _ (Nat.zero_le P) (paddedPatternCount_ge modulus P)]
  have hzero : ∑ p ∈ Finset.Ico P (paddedPatternCount modulus P),
      W p * (lg (siteLikelihood C S w freqs (Q p)) + sigma p) = 0 := by
    apply Finset.sum_eq_zero
    intro p hp
    rw [hW p (Finset.mem_Ico.mp hp).1, zero_mul]
  rw [hzero, add_zero]

/-- Witness for C8: a one-of-everything instance with modulus `2`, one
upload, checked at buffer `0`. -/
theorem partials_buffer_size_invariant_witness :
    ((runOps (createInstance 1 1 1 1 2) [InstanceOp.setBuffer 0 (fun _ => 1)]).gPartials 0).length =
      1 * (paddedPatternCount 2 1 * 1) :=
  (partials_buffer_size_invariant 1 1 1 1 2 [InstanceOp.setBuffer 0 (fun _ => 1)] 0
    (by decide) (by decide) id (fun _ => 1) (fun _ => 1) (fun _ _ _ => 1) (fun _ => 0)
    (fun _ => 0) (fun _ _ => rfl)).1

/-! ### Category-rate precision (header line 103, lines 229-235)

The header declares `double** gCategoryRates` with the comment: kept in
double-precision until multiplication by edgelength. The narrowing site is
the transition-matrix derivation in the eigen layer, outside the snapshot;
it is modelled from the spec as an abstract narrowing map. -/

/-- The narrowing from double to the instance real type: the identity for
double-precision instances, a rounding map for single-precision ones. -/
structure PrecisionModel where
  narrow : ℚ → ℚ

/-- The double-precision instantiation narrows nothing. -/
def doublePrecision : PrecisionModel := ⟨id⟩

/-- `setCategoryRatesWithIndex` stores the caller's doubles into
`gCategoryRates` without conversion (header line 103: the field is
`double**` for every instantiation, so no `PrecisionModel` is involved). -/
def setCategoryRatesWithIndex (gCategoryRates : ℕ → ℕ → ℚ) (index : ℕ)
    (inRates : ℕ → ℚ) : ℕ → ℕ → ℚ :=
  Function.update gCategoryRates index inRates

/-- Modelled from the spec: transition-matrix derivation forms the product
`rate * edgeLength` in double precision and narrows the product — not the
factors — to the instance real type. -/
def scaledEdgeLength (prec : PrecisionModel) (rate edgeLength : ℚ) : ℚ :=
  prec.narrow (rate * edgeLength)

/-- C9: category rates are stored in double precision regardless of the
instance real type — the stored vector is the caller's input, with no
narrowing applied — and the rate-times-edge-length product is formed
before any narrowing, so a double-precision instance obtains the exact
product. -/
theorem category_rates_double_precision (prec : PrecisionModel)
    (gCategoryRates : ℕ → ℕ → ℚ) (index : ℕ) (inRates : ℕ → ℚ) (c : ℕ)
    (rate edgeLength : ℚ) :
    setCategoryRatesWithIndex gCategoryRates index inRates index c = inRates c ∧
    scaledEdgeLength prec rate edgeLength = prec.narrow (rate * edgeLength) ∧
    scaledEdgeLength doublePrecision rate edgeLength = rate * edgeLength := by
  refine ⟨?_, rfl, rfl⟩
  rw [setCategoryRatesWithIndex, Function.update_same]

/-! ### Default layout paddings (header lines 54-55, 79-80, 86, 124-127) -/

/-- Header line 79: the padded transition-matrix row width, `S + T_PAD`. -/
def kTransPaddedStateCount (S : ℕ) : ℕ := S + T_PAD_DEFAULT

/-- Header line 80: the padded partials row width, `S + P_PAD`. -/
def kPartialsPaddedStateCount (S : ℕ) : ℕ := S + P_PAD_DEFAULT

/-- Header line 86: `kMatrixSize = kStateCount * (kStateCount + 1)`, the
per-category flattened block of a transition-matrix buffer. -/
def kMatrixSize (S : ℕ) : ℕ := S * kTransPaddedStateCount S

/-- Modelled from the spec: a transition-matrix buffer stores, per
category, a flattened `S x (S + T_PAD)` block whose final padded column
holds `1.0` (spec section 3; the writers live outside the snapshot). -/
def buildTransitionMatrix (S : ℕ) (entry : ℕ → ℕ → ℕ → ℚ) : ℕ → ℚ :=
  fun idx =>
    if idx % kTransPaddedStateCount S = S then 1
    else entry (idx / kTransPaddedStateCount S / S) (idx / kTransPaddedStateCount S % S)
      (idx % kTransPaddedStateCount S)

/-- C10: in the default (non-SSE) instantiation the paddings are the fixed
constants `T_PAD = 1` and `P_PAD = 0`: transition-matrix rows have
`S_T = S + 1` entries, a per-category block is `S * (S + 1)` reals whose
extra column carries the `1.0` ambiguity entry, and partials rows carry no
padding, `S_P = S`. -/
theorem default_padding_layout (S c a : ℕ) (entry : ℕ → ℕ → ℕ → ℚ) :
    T_PAD_DEFAULT = 1 ∧ P_PAD_DEFAULT = 0 ∧
    kTransPaddedStateCount S = S + 1 ∧ kPartialsPaddedStateCount S = S ∧
    kMatrixSize S = S * (S + 1) ∧
    matrixEntry S (buildTransitionMatrix S entry) c a S = 1 := by
  refine ⟨rfl, rfl, rfl, rfl, rfl, ?_⟩
  unfold matrixEntry buildTransitionMatrix
  have hmod : ((c * S + a) * (S + T_PAD_DEFAULT) + S) % kTransPaddedStateCount S = S := by
    show ((c * S + a) * (S + 1) + S) % (S + 1) = S
    rw [mul_comm (c * S + a) (S + 1), Nat.mul_add_mod, Nat.mod_eq_of_lt (Nat.lt_succ_self S)]
  rw [if_pos hmod]

end BeagleCPU
